import Mathlib

/-!
Verification development for the concept-collection crawl pipeline
(`concept_collection_pipeline/concept_extraction.py` and
`concept_collection_pipeline/concept_filtering.py`).

The Python code is shallowly embedded: pandas `DataFrame`s become a `Table`
of string cells, BeautifulSoup documents become a `Node` tree, the module
globals (`PERSON_DB`, `CULTURES`, ...) become explicit parameters, and every
Python statement that can raise is modelled in `Except PyError`.
-/

/-- Exceptions the embedded Python code can raise. -/
inductive PyError where
  /-- `AttributeError`, e.g. calling a method on `None` or a missing module
  attribute such as `pd.read_csv_file`. -/
  | attributeError
  /-- `IndexError`, e.g. `next_urls[0]` on an empty list or `[...][0]` on an
  empty selector result. -/
  | indexError
  /-- `FileNotFoundError` raised by `pd.read_csv` on an absent file. -/
  | fileNotFoundError
  /-- an exception escaping `requests.get` (network failure). -/
  | requestsException
  deriving DecidableEq, Repr

/-- Whether the first list is a leading segment of the second (all character
functions here recurse structurally so the kernel can evaluate them inside
`decide` and `rfl` proofs). -/
def beginsWithL : List Char → List Char → Bool
  | [], _ => true
  | _ :: _, [] => false
  | a :: as, b :: bs => a == b && beginsWithL as bs

/-- Python `s.startswith(pat)`. -/
def pyStartsWith (s pat : String) : Bool :=
  beginsWithL pat.data s.data

/-- Python `s.endswith(pat)`. -/
def pyEndsWith (s pat : String) : Bool :=
  beginsWithL pat.data.reverse s.data.reverse

/-- Whether the needle occurs as a contiguous segment of the haystack. -/
def subsegment : List Char → List Char → Bool
  | needle, [] => beginsWithL needle []
  | needle, c :: rest => beginsWithL needle (c :: rest) || subsegment needle rest

/-- Python `needle in haystack` on strings (substring containment, with
Python's edge case `"" in s = True`). -/
def strContains (haystack needle : String) : Bool :=
  subsegment needle.data haystack.data

/-- Accumulator-based whitespace splitter behind `pySplit`. -/
def splitWsAux : List Char → List Char → List String
  | cur, [] => if cur.isEmpty then [] else [⟨cur.reverse⟩]
  | cur, c :: rest =>
    if c.isWhitespace then
      (if cur.isEmpty then [] else [⟨cur.reverse⟩]) ++ splitWsAux [] rest
    else splitWsAux (c :: cur) rest

/-- Python `str.split()` with no argument: split on whitespace runs,
discarding empty pieces. -/
def pySplit (s : String) : List String :=
  splitWsAux [] s.data

/-- Fuelled separator splitter behind `pySplitOn` (the fuel, the haystack
length, makes the recursion structural; it never runs out). -/
def splitOnLAux (sep : List Char) : Nat → List Char → List Char → List (List Char)
  | _, cur, [] => [cur.reverse]
  | 0, cur, l => [cur.reverse ++ l]
  | fuel + 1, cur, c :: rest =>
    if beginsWithL sep (c :: rest) then
      cur.reverse :: splitOnLAux sep fuel [] (List.drop (sep.length - 1) rest)
    else splitOnLAux sep fuel (c :: cur) rest

/-- Python `s.split(sep)` for a nonempty separator. -/
def pySplitOn (s sep : String) : List String :=
  if sep.data.isEmpty then [s]
  else (splitOnLAux sep.data s.data.length [] s.data).map (fun cs => ⟨cs⟩)

/-- Python `str.lower()` (ASCII case folding). -/
def pyLower (s : String) : String :=
  ⟨s.data.map Char.toLower⟩

/-- Python `str.strip()`: drop whitespace from both ends. -/
def pyStrip (s : String) : String :=
  ⟨((s.data.dropWhile Char.isWhitespace).reverse.dropWhile Char.isWhitespace).reverse⟩

/-- Python `str.isalpha()`: nonempty and every character alphabetic.
(`Char.isAlpha` covers ASCII letters; the inputs settled by the claims are
ASCII.) -/
def pyIsAlpha (s : String) : Bool :=
  s ≠ "" && s.data.all Char.isAlpha

/-- Adding an element to a Python `set`, modelled as append-if-absent on a
duplicate-free list (only membership in the final `list(set)` is used by the
claims). -/
def setAdd (l : List String) (x : String) : List String :=
  if x ∈ l then l else l ++ [x]

/-- A pandas `DataFrame` whose cells are strings: a header row `cols` and the
data rows, each row aligned with `cols`. -/
structure Table where
  cols : List String
  rows : List (List String)
  deriving DecidableEq, Repr

/-- Pandas `drop_duplicates` keeps the FIRST occurrence of each duplicate.
`seen` accumulates the rows kept so far. -/
def dropDuplicates {α : Type} [DecidableEq α] (seen : List α) : List α → List α
  | [] => []
  | r :: rs => if r ∈ seen then dropDuplicates seen rs else r :: dropDuplicates (r :: seen) rs

/-- `concat_and_filter_unique_values` (concept_extraction.py lines 56-67):
`pd.concat([df1, df2]).drop_duplicates(subset=df1.columns)`.  The pipeline
always merges frames of identical schema, so the dedup key
`subset=df1.columns` is the whole row; the embedding covers that same-schema
case (pandas would union differing schemas with NaN padding). -/
def concat_and_filter_unique_values (df1 df2 : Table) : Table :=
  ⟨df1.cols, dropDuplicates [] (df1.rows ++ df2.rows)⟩

/-- `overwrite_file` (concept_extraction.py lines 29-53) for `file_type="csv"`
with a DataFrame argument.  The persisted file is `store` (`none` = absent).
`pd.read_csv` RAISES `FileNotFoundError` on an absent path and never returns
`None`, so the `if old_contents is None` branch at line 47 is unreachable;
the embedding therefore errors when `store = none`.  On success the returned
table is the new file contents. -/
def overwrite_file (store : Option Table) (new_contents : Table) : Except PyError Table :=
  match store with
  | none => .error .fileNotFoundError
  | some old_contents => .ok (concat_and_filter_unique_values old_contents new_contents)

/-- The wikipedia base prefix hard-coded in `select_next_urls_to_jump_to`. -/
def wikiBase : String := "https://en.wikipedia.org/"

/-- The body of `select_next_urls_to_jump_to` (concept_extraction.py lines
306-315) as written AFTER the faulty read: given the overflow-queue rows and
the visited list it returns the refilled queue and the remaining overflow
rows.  Line 307 takes the first 100 rows; with a nonempty visited list every
taken url is prefixed with the base url unconditionally (line 310) and
already-visited results are dropped; with an empty visited list only bare
paths are prefixed (line 312) and nothing is dropped; line 314 persists the
overflow rows beyond the first 100. -/
def select_next_urls_body (queue visited : List String) : List String × List String :=
  let new_urls := queue.take 100
  let next_urls :=
    if visited.isEmpty then
      new_urls.map (fun url => if pyStartsWith url "https://" then url else wikiBase ++ url)
    else
      new_urls.filterMap (fun url =>
        if (wikiBase ++ url) ∈ visited then none else some (wikiBase ++ url))
  (next_urls, queue.drop 100)

/-- `select_next_urls_to_jump_to` (concept_extraction.py lines 299-315).
Line 305 reads `pd.read_csv_file(ALL_URLS_FILE)`, but pandas has no attribute
`read_csv_file`, so every call raises `AttributeError` before the body
(embedded separately as `select_next_urls_body`) can run. -/
def select_next_urls_to_jump_to (allUrlsFile : Option Table) (visited : List String) :
    Except PyError (List String × Option Table) :=
  .error .attributeError

/-- `contains_person_name` (concept_extraction.py lines 123-131): true when
SOME database entry has EVERY one of its whitespace tokens occurring as a
whole token of the caption.  The `isinstance(caption, float)` guard (a NaN
check for values read back from csv) is outside the string-typed embedding
and always falls through to the loop here. -/
def contains_person_name (personDb : List String) (caption : String) : Bool :=
  personDb.any fun name => (pySplit name).all fun word => (pySplit caption).contains word

/-- `contains_person_name` in concept_filtering.py (lines 36-45), which
differs from the crawl-time version: it returns true when SOME token of some
database entry occurs as a whole token of the caption. -/
def contains_person_name_filtering (personDb : List String) (caption : String) : Bool :=
  personDb.any fun name => (pySplit name).any fun subname => (pySplit caption).contains subname

/-- `contains_location` (concept_extraction.py lines 133-142): same whole-word
all-tokens rule as the crawl-time person matcher (the `isinstance` guard on
the database entries always succeeds for string entries). -/
def contains_location (locationDb : List String) (caption : String) : Bool :=
  locationDb.any fun location => (pySplit location).all fun word => (pySplit caption).contains word

mutual
/-- A parsed HTML document (BeautifulSoup tree): element nodes carry a tag
name, attributes and children; text nodes carry a string.  `NodeList` is a
hand-rolled list so that all traversals are mutual structural recursions that
the kernel can evaluate. -/
inductive Node where
  | elem (tag : String) (attrs : List (String × String)) (children : NodeList)
  | text (s : String)
/-- Children of an element node. -/
inductive NodeList where
  | nil
  | cons (head : Node) (tail : NodeList)
end

/-- `tag.get(key)`: attribute lookup, `none` when the attribute is absent. -/
def Node.getAttr : Node → String → Option String
  | .elem _ attrs _, key => (attrs.find? (fun kv => kv.1 == key)).map (·.2)
  | .text _, _ => none

/-- Whether a node is an element with the given tag name. -/
def Node.tagIs : Node → String → Bool
  | .elem t _ _, tag => t == tag
  | .text _, _ => false

mutual
/-- All descendant nodes of a node in document (pre-order) order, the order in
which BeautifulSoup's `find_all`, `find` and `find_next` traverse. -/
def Node.descendants : Node → List Node
  | .text _ => []
  | .elem _ _ cs => NodeList.descList cs
/-- Descendants of a node list, document order. -/
def NodeList.descList : NodeList → List Node
  | .nil => []
  | .cons c cs => c :: Node.descendants c ++ NodeList.descList cs
end

mutual
/-- `tag.get_text()`: concatenation of all descendant strings. -/
def Node.getText : Node → String
  | .text s => s
  | .elem _ _ cs => NodeList.textList cs
/-- Concatenated text of a node list. -/
def NodeList.textList : NodeList → String
  | .nil => ""
  | .cons c cs => Node.getText c ++ NodeList.textList cs
end

/-- `soup.find_all(tag)`: all descendant elements with the tag, document
order. -/
def findAllTag (tag : String) (n : Node) : List Node :=
  n.descendants.filter (·.tagIs tag)

/-- `soup.find(tag)`: the first descendant element with the tag. -/
def findFirstTag (tag : String) (n : Node) : Option Node :=
  (findAllTag tag n).head?

/-- `soup.find(id=v)` and also `soup.select("#v")[0]?`: the first descendant
with the given id attribute. -/
def findById (idv : String) (n : Node) : Option Node :=
  n.descendants.find? (fun m => m.getAttr "id" == some idv)

/-- Whether an attribute list carries a `class` containing the given class
token (classes are whitespace-separated). -/
def hasClassAttrs (attrs : List (String × String)) (cls : String) : Bool :=
  match (attrs.find? (fun kv => kv.1 == "class")).map (·.2) with
  | some s => (pySplit s).contains cls
  | none => false

mutual
/-- `soup.select("li.interlanguage-link > a")`: every `a` element that is a
direct child of an `li` with class `interlanguage-link`, document order. -/
def Node.selectInterlanguageAnchors : Node → List Node
  | .text _ => []
  | .elem tag attrs cs =>
      NodeList.selectAnchorsUnder (tag == "li" && hasClassAttrs attrs "interlanguage-link") cs
/-- Anchors collected from a child list; `underLi` records whether the parent
matched `li.interlanguage-link`. -/
def NodeList.selectAnchorsUnder : Bool → NodeList → List Node
  | _, .nil => []
  | underLi, .cons c cs =>
      (if underLi && c.tagIs "a" then [c] else [])
        ++ Node.selectInterlanguageAnchors c ++ NodeList.selectAnchorsUnder underLi cs
end

/-- Assignment `d[k] = v` on a Python dict modelled as an association list:
overwrite in place if the key is present, else append.  Keys and values are
`Option String` because `tag.get(...)` can yield `None`. -/
def dictUpsert (d : List (Option String × Option String)) (k v : Option String) :
    List (Option String × Option String) :=
  if d.any (fun kv => kv.1 == k) then d.map (fun kv => if kv.1 == k then (k, v) else kv)
  else d ++ [(k, v)]

/-- Dict lookup: `some value` when the key is present. -/
def dictGet (d : List (Option String × Option String)) (k : Option String) :
    Option (Option String) :=
  (d.find? (fun kv => kv.1 == k)).map (·.2)

/-- The `lang_dict` built in `append_multilingual_url` (lines 290-292) from the
interlanguage anchors of the current page. -/
def buildLangDict (anchors : List Node) : List (Option String × Option String) :=
  anchors.foldl (fun d a => dictUpsert d (a.getAttr "lang") (a.getAttr "href")) []

/-- `append_multilingual_url` (concept_extraction.py lines 281-297): when the
page's default culture has a language prefix and the page offers an
interlanguage link for it that is not yet visited, append that link to the
queue; otherwise return the queue unchanged.  (An interlanguage anchor
without an `href` would make Python append `None` to the url list; the
string-typed queue keeps such a page's queue unchanged instead, a corner no
claim depends on.) -/
def append_multilingual_url (default_culture : String) (soup : Node)
    (next_urls visited_urls : List String) : List String :=
  let language_prefixes := [("korean", "ko"), ("chinese", "zh"), ("spanish", "es"), ("german", "de")]
  let lang_dict := buildLangDict soup.selectInterlanguageAnchors
  match (language_prefixes.find? (fun kv => kv.1 == default_culture)).map (·.2) with
  | none => next_urls
  | some pref =>
    match dictGet lang_dict (some pref) with
    | none => next_urls
    | some none => next_urls
    | some (some new_link) =>
        if new_link ∈ visited_urls then next_urls else next_urls ++ [new_link]

/-- `get_all_italic_words` (concept_extraction.py lines 106-121): the stripped
text of every `<i>` descendant that is purely alphabetic and longer than one
character, lowercased, collected as a set, as a one-column frame. -/
def get_all_italic_words (soup_content : Node) : Table :=
  let italic_words := (findAllTag "i" soup_content).foldl
    (fun acc tag =>
      let italic_phrase := pyStrip tag.getText
      if pyIsAlpha italic_phrase && italic_phrase.length > 1 then setAdd acc (pyLower italic_phrase)
      else acc) []
  ⟨["concepts"], italic_words.map (fun w => [w])⟩

/-- One iteration of the figure scan of `get_captioned_images` (lines 156-165).
A figure holding an `<img>` but no `<figcaption>` raises `AttributeError`
(`None.get_text()`), as does a filtered-through image without a `src`
(`None.endswith`). -/
def figStep (personDb : List String) (fig : Node) (acc : List String × List String) :
    Except PyError (List String × List String) :=
  match findFirstTag "img" fig with
  | none => .ok acc
  | some img =>
    match findFirstTag "figcaption" fig with
    | none => .error .attributeError
    | some figcaption =>
      let img_caption := pyLower (pyStrip figcaption.getText)
      if img_caption.data.any Char.isDigit || !(contains_person_name personDb img_caption) then
        match img.getAttr "src" with
        | none => .error .attributeError
        | some img_src =>
          if pyEndsWith img_src "jpg" || pyEndsWith img_src "jpeg" || pyEndsWith img_src "gif" then
            .ok (acc.1 ++ [img_caption], acc.2 ++ [img_src])
          else .ok acc
      else .ok acc

/-- The figure scan folded over all `<figure>` descendants. -/
def figLoop (personDb : List String) : List Node → List String × List String →
    Except PyError (List String × List String)
  | [], acc => .ok acc
  | fig :: figs, acc =>
    match figStep personDb fig acc with
    | .error e => .error e
    | .ok acc => figLoop personDb figs acc

/-- One iteration of the alt-text scan of `get_captioned_images` (lines
167-178).  An `<img>` without `src` passes the `not in img_sources` test
(Python `None` is not among the collected strings) and then raises
`AttributeError` at `None.endswith`. -/
def imgStep (personDb : List String) (img : Node) (acc : List String × List String) :
    Except PyError (List String × List String) :=
  match img.getAttr "src" with
  | none => .error .attributeError
  | some img_src =>
    if img_src ∈ acc.2 then .ok acc
    else if !(pyEndsWith img_src "jpg" || pyEndsWith img_src "jpeg" || pyEndsWith img_src "gif") then
      .ok acc
    else
      match img.getAttr "alt" with
      | none => .ok acc
      | some img_title =>
        if img_title = "" then .ok acc
        else
          let img_title := pyLower (pyStrip img_title)
          if img_title.data.any Char.isDigit || !(contains_person_name personDb img_title) then
            .ok (acc.1 ++ [img_title], acc.2 ++ [img_src])
          else .ok acc

/-- The alt-text scan folded over all `<img>` descendants. -/
def imgLoop (personDb : List String) : List Node → List String × List String →
    Except PyError (List String × List String)
  | [], acc => .ok acc
  | img :: imgs, acc =>
    match imgStep personDb img acc with
    | .error e => .error e
    | .ok acc => imgLoop personDb imgs acc

/-- `get_captioned_images` (concept_extraction.py lines 144-180): the figure
scan followed by the alt-text scan, producing the
`{img_source, img_captions}` frame. -/
def get_captioned_images (personDb : List String) (soup_content : Node) :
    Except PyError Table :=
  match figLoop personDb (findAllTag "figure" soup_content) ([], []) with
  | .error e => .error e
  | .ok acc =>
    match imgLoop personDb (findAllTag "img" soup_content) acc with
    | .error e => .error e
    | .ok acc =>
      .ok ⟨["img_source", "img_captions"], List.zipWith (fun src cap => [src, cap]) acc.2 acc.1⟩

/-- The href filter of line 209: truthy, starts with `/wiki/`, has no colon
and no `(identifier)` substring. -/
def hrefKeptStr (h : String) : Bool :=
  h ≠ "" && pyStartsWith h "/wiki/" && !(h.data.contains ':') && !(strContains h "(identifier)")

/-- Line 209's filter on an optional href (`None` is falsy). -/
def hrefKept (h : Option String) : Bool :=
  h.any hrefKeptStr

/-- The cutoff state for the link loop: `none` when the page has no reference
section; `some none` when the section exists but no anchor follows it (then
`reference_section.find_next("a").get("href")` raises on the first link);
`some (some h)` when the first anchor after the section has href `h` (which
may itself be `None`). -/
abbrev RefCut := Option (Option (Option String))

/-- The `for link in outgoing_links` loop of `extract_link_concepts_and_urls`
(lines 204-212), accumulating the url and concept sets.  A link passing the
href filter whose `title` attribute is absent raises `AttributeError` at
`concept_title.isalpha()` (line 210). -/
def linksLoop (refCut : RefCut) : List Node → List String → List String →
    Except PyError (List String × List String)
  | [], urls, concepts => .ok (urls, concepts)
  | link :: rest, urls, concepts =>
    let href := link.getAttr "href"
    match (match refCut with
           | some none => none
           | some (some cut) => some (href == cut)
           | none => some false : Option Bool) with
    | none => .error .attributeError
    | some true => .ok (urls, concepts)
    | some false =>
      if hrefKept href then
        match link.getAttr "title" with
        | none => .error .attributeError
        | some concept_title =>
          linksLoop refCut rest (setAdd urls (href.getD ""))
            (if pyIsAlpha concept_title && concept_title.length > 1 then
              setAdd concepts (pyLower concept_title)
            else concepts)
      else linksLoop refCut rest urls concepts

/-- The language-code → reference-section-id table of line 195. -/
def language_prefixes_sections : List (String × String) :=
  [("en", "References"), ("es", "Referencias"), ("de", "Weblinks"),
   ("zh", "參考來源"), ("ko", "참고 문헌")]

/-- The cutoff computation of lines 202 and 207: locate the reference section
by id among the descendants and take the href of the first anchor strictly
after it in document order. -/
def refCutOf (soup_content : Node) (idv : String) : RefCut :=
  let ds := soup_content.descendants
  match ds.findIdx? (fun m => m.getAttr "id" == some idv) with
  | none => none
  | some i => some (((ds.drop (i + 1)).find? (·.tagIs "a")).map (·.getAttr "href"))

/-- `extract_link_concepts_and_urls` (concept_extraction.py lines 182-213).
The language code is the two characters after the first `//` of the current
url (`IndexError` when the url has no `//`); unsupported languages return two
empty frames before the document is touched; a `None` document (no
`bodyContent`) raises at `soup_content.find`. -/
def extract_link_concepts_and_urls (soup_content : Option Node) (current_url : String) :
    Except PyError (Table × Table) :=
  match (pySplitOn current_url "//")[1]? with
  | none => .error .indexError
  | some part =>
    let language_code : String := ⟨part.data.take 2⟩
    match (language_prefixes_sections.find? (fun kv => kv.1 == language_code)).map (·.2) with
    | none => .ok (⟨["urls"], []⟩, ⟨["concepts"], []⟩)
    | some idv =>
      match soup_content with
      | none => .error .attributeError
      | some content =>
        (linksLoop (refCutOf content idv) (findAllTag "a" content) [] []).map
          (fun (scraped_urls, url_concepts) =>
            (⟨["urls"], scraped_urls.map (fun u => [u])⟩,
             ⟨["concepts"], url_concepts.map (fun c => [c])⟩))

/-- Column position of a named column. -/
def Table.colIdx (cols : List String) (c : String) : Option Nat :=
  cols.findIdx? (fun k => k == c)

/-- `row[c]` relative to a header: the cell of the named column (the pipeline
only reads columns it previously created, so the default is never hit on its
own tables). -/
def getCellD (cols : List String) (row : List String) (c : String) : String :=
  match Table.colIdx cols c with
  | some i => (row[i]?).getD ""
  | none => ""

/-- `df.at[idx, c] = v` on one row. -/
def setCell (cols : List String) (row : List String) (c v : String) : List String :=
  match Table.colIdx cols c with
  | some i => row.set i v
  | none => row

/-- `df[c] = v`: add a constant-valued column. -/
def addColumn (t : Table) (c v : String) : Table :=
  ⟨t.cols ++ [c], t.rows.map (fun r => r ++ [v])⟩

/-- `df.drop(c, axis=1)`. -/
def dropColumn (t : Table) (c : String) : Table :=
  match Table.colIdx t.cols c with
  | some i => ⟨t.cols.eraseIdx i, t.rows.map (fun r => r.eraseIdx i)⟩
  | none => t

/-- `get_default_culture_and_semantic_field` (lines 215-236): the value of the
first lexicon keyword occurring as a substring of the title, per lexicon,
empty string when none matches. -/
def get_default_culture_and_semantic_field (cultures semanticFields : List (String × String))
    (title : String) : String × String :=
  (((cultures.find? (fun kv => strContains title kv.1)).map (·.2)).getD "",
   ((semanticFields.find? (fun kv => strContains title kv.1)).map (·.2)).getD "")

/-- `find_paragraphs_for_concepts` (lines 83-104): append an `information`
column holding the comma-joined lowercased text of every paragraph containing
the concept's surface text as a substring. -/
def find_paragraphs_for_concepts (soup : Node) (concepts : Table) : Table :=
  let all_paragraphs := (findAllTag "p" soup).map (fun p => pyLower p.getText)
  ⟨concepts.cols ++ ["information"],
   concepts.rows.map (fun row =>
     let surface := getCellD concepts.cols row "concepts"
     let information := all_paragraphs.foldl
       (fun info para_text =>
         if strContains para_text surface then
           if info = "" then para_text else info ++ ", " ++ para_text
         else info) ""
     row ++ [information])⟩

/-- `assign_culture_and_semantic_fields_to_concepts` (lines 238-262): refine
the `culture` and `semantic_field` cells of each row from the first lexicon
keyword occurring inside the row's `information` text, then drop the
`information` column. -/
def assign_culture_and_semantic_fields_to_concepts
    (cultures semanticFields : List (String × String)) (concepts : Table) : Table :=
  let rows1 := concepts.rows.map (fun row =>
    match cultures.find? (fun kv => strContains (getCellD concepts.cols row "information") kv.1) with
    | some kv => setCell concepts.cols row "culture" kv.2
    | none => row)
  let rows2 := rows1.map (fun row =>
    match semanticFields.find? (fun kv =>
        strContains (getCellD concepts.cols row "information") kv.1) with
    | some kv => setCell concepts.cols row "semantic_field" kv.2
    | none => row)
  dropColumn ⟨concepts.cols, rows2⟩ "information"

/-- Outcome of `requests.get`: a raised network exception, or a response whose
truthiness (`if response:`) is `ok` and whose parsed content is `doc`. -/
inductive FetchResult where
  | netError
  | response (ok : Bool) (doc : Node)

/-- The mutable state of the crawl (lines 346-351): the in-memory active queue
and visited list, and the three persisted tables (`none` = the file does not
exist). -/
structure CrawlState where
  nextUrls : List String
  visitedUrls : List String
  allUrlsFile : Option Table
  imagesFile : Option Table
  conceptFile : Option Table
  deriving DecidableEq, Repr

/-- The state at lines 346-351 of a fresh run: the (shuffled) first 200 seed
urls, nothing visited, the overflow file truncated to a header-only csv, the
images and concepts files not yet created. -/
def initCrawlState (seeds : List String) : CrawlState :=
  ⟨seeds, [], some ⟨["urls"], []⟩, none, none⟩

/-- Line 355: `visited_urls.append(next_urls[0])`, executed before the head is
popped at line 386. -/
def markVisited (st : CrawlState) : CrawlState :=
  { st with visitedUrls := st.visitedUrls ++ st.nextUrls.take 1 }

/-- The body of `if response:` (lines 358-384) for the current url `u` and
parsed document `doc`: default classification, interlanguage append, image
extraction and persist, outbound-link extraction and persist, concept
extraction, provenance refinement and persist. -/
def processPage (cultures semanticFields : List (String × String)) (personDb : List String)
    (u : String) (doc : Node) (st : CrawlState) : Except PyError CrawlState := do
  let soup_content := findById "bodyContent" doc
  match findById "firstHeading" doc with
  | none => .error .indexError
  | some heading =>
    let title := pyLower heading.getText
    let (default_culture, default_semantic_field) :=
      get_default_culture_and_semantic_field cultures semanticFields title
    let st := { st with
      nextUrls := append_multilingual_url default_culture doc st.nextUrls st.visitedUrls }
    let page_images ← match soup_content with
      | none => .error .attributeError
      | some content => get_captioned_images personDb content
    let page_images := addColumn (addColumn page_images "culture" default_culture)
      "semantic_field" default_semantic_field
    let images' ← overwrite_file st.imagesFile page_images
    let st := { st with imagesFile := some images' }
    let (outgoing_links, url_concepts) ← extract_link_concepts_and_urls soup_content u
    let page_outgoing_urls : Table :=
      ⟨outgoing_links.cols, outgoing_links.rows.filter
        (fun row => !(st.visitedUrls.contains (getCellD outgoing_links.cols row "urls")))⟩
    let allUrls' ← overwrite_file st.allUrlsFile page_outgoing_urls
    let st := { st with allUrlsFile := some allUrls' }
    let italic ← match soup_content with
      | none => .error .attributeError
      | some content => .ok (get_all_italic_words content)
    let concepts := concat_and_filter_unique_values url_concepts italic
    let concepts := addColumn (addColumn concepts "culture" default_culture)
      "semantic_field" default_semantic_field
    let concepts_with_information := find_paragraphs_for_concepts doc concepts
    let concepts_culture :=
      assign_culture_and_semantic_fields_to_concepts cultures semanticFields
        concepts_with_information
    let concepts' ← overwrite_file st.conceptFile concepts_culture
    return { st with conceptFile := some concepts' }

/-- One iteration of the crawl loop (lines 353-391): fetch the head url (a
network exception aborts the run with nothing recorded), mark it visited,
process the page when the response is truthy, pop the head, and refill the
queue through `select_next_urls_to_jump_to` when it became empty. -/
def crawlStep (fetch : String → FetchResult) (cultures semanticFields : List (String × String))
    (personDb : List String) (st : CrawlState) : Except PyError CrawlState :=
  match st.nextUrls.head? with
  | none => .error .indexError
  | some u =>
    match fetch u with
    | .netError => .error .requestsException
    | .response ok doc =>
      let st1 := markVisited st
      (if ok then processPage cultures semanticFields personDb u doc st1 else .ok st1) >>=
        fun st2 =>
          let st3 := { st2 with nextUrls := st2.nextUrls.drop 1 }
          if st3.nextUrls.isEmpty then
            select_next_urls_to_jump_to st3.allUrlsFile st3.visitedUrls >>=
              fun (new_urls, allUrls') =>
                .ok { st3 with nextUrls := new_urls, allUrlsFile := allUrls' }
          else .ok st3

/-- The whole `for i in tqdm(range(ITERATIONS))` loop, iterated `n` times. -/
def crawlLoop (fetch : String → FetchResult) (cultures semanticFields : List (String × String))
    (personDb : List String) : Nat → CrawlState → Except PyError CrawlState
  | 0, st => .ok st
  | n + 1, st => crawlStep fetch cultures semanticFields personDb st >>=
      crawlLoop fetch cultures semanticFields personDb n

theorem dropDuplicates_congr {α : Type} [DecidableEq α] (s₁ s₂ : List α) (l : List α)
    (h : ∀ x ∈ l, (x ∈ s₁ ↔ x ∈ s₂)) : dropDuplicates s₁ l = dropDuplicates s₂ l := by
  induction l generalizing s₁ s₂ with
  | nil => rfl
  | cons a t ih =>
    simp only [dropDuplicates]
    by_cases ha : a ∈ s₁
    · rw [if_pos ha, if_pos ((h a (List.mem_cons_self a t)).mp ha)]
      exact ih s₁ s₂ (fun x hx => h x (List.mem_cons_of_mem a hx))
    · rw [if_neg ha, if_neg (fun hc => ha ((h a (List.mem_cons_self a t)).mpr hc))]
      congr 1
      refine ih (a :: s₁) (a :: s₂) (fun x hx => ?_)
      simp only [List.mem_cons]
      exact or_congr Iff.rfl (h x (List.mem_cons_of_mem a hx))

theorem mem_dropDuplicates {α : Type} [DecidableEq α] (s l : List α) (x : α) :
    x ∈ dropDuplicates s l ↔ x ∈ l ∧ x ∉ s := by
  induction l generalizing s with
  | nil => simp [dropDuplicates]
  | cons a t ih =>
    simp only [dropDuplicates]
    by_cases ha : a ∈ s
    · rw [if_pos ha, ih]
      simp only [List.mem_cons]
      constructor
      · rintro ⟨h1, h2⟩
        exact ⟨Or.inr h1, h2⟩
      · rintro ⟨rfl | h1, h2⟩
        · exact absurd ha h2
        · exact ⟨h1, h2⟩
    · rw [if_neg ha]
      simp only [List.mem_cons, ih]
      constructor
      · rintro (rfl | ⟨h1, h2⟩)
        · exact ⟨Or.inl rfl, ha⟩
        · exact ⟨Or.inr h1, fun hc => h2 (Or.inr hc)⟩
      · rintro ⟨rfl | h1, h2⟩
        · exact Or.inl rfl
        · by_cases hxa : x = a
          · exact Or.inl hxa
          · exact Or.inr ⟨h1, fun hc => hc.elim hxa h2⟩

theorem dropDuplicates_append {α : Type} [DecidableEq α] (s l l' : List α) :
    dropDuplicates s (l ++ l') = dropDuplicates s l ++ dropDuplicates (l ++ s) l' := by
  induction l generalizing s with
  | nil => simp [dropDuplicates]
  | cons a t ih =>
    simp only [List.cons_append, dropDuplicates, List.append_eq]
    by_cases ha : a ∈ s
    · rw [if_pos ha, if_pos ha, ih]
      congr 1
      refine dropDuplicates_congr _ _ _ (fun x _ => ?_)
      simp only [List.mem_append, List.mem_cons]
      constructor
      · rintro (h1 | h1)
        · exact Or.inr (Or.inl h1)
        · exact Or.inr (Or.inr h1)
      · rintro (rfl | h1 | h1)
        · exact Or.inr ha
        · exact Or.inl h1
        · exact Or.inr h1
    · rw [if_neg ha, if_neg ha, ih]
      congr 2
      refine dropDuplicates_congr _ _ _ (fun x _ => ?_)
      simp only [List.mem_append, List.mem_cons]
      constructor
      · rintro (h1 | rfl | h1)
        · exact Or.inr (Or.inl h1)
        · exact Or.inl rfl
        · exact Or.inr (Or.inr h1)
      · rintro (rfl | h1 | h1)
        · exact Or.inr (Or.inl rfl)
        · exact Or.inl h1
        · exact Or.inr (Or.inr h1)

theorem dropDuplicates_eq_nil {α : Type} [DecidableEq α] (s l : List α)
    (h : ∀ x ∈ l, x ∈ s) : dropDuplicates s l = [] := by
  induction l with
  | nil => rfl
  | cons a t ih =>
    simp only [dropDuplicates, if_pos (h a (List.mem_cons_self a t))]
    exact ih (fun x hx => h x (List.mem_cons_of_mem a hx))

theorem dropDuplicates_nodup {α : Type} [DecidableEq α] (s l : List α) :
    (dropDuplicates s l).Nodup := by
  induction l generalizing s with
  | nil => exact List.nodup_nil
  | cons a t ih =>
    simp only [dropDuplicates]
    by_cases ha : a ∈ s
    · rw [if_pos ha]; exact ih s
    · rw [if_neg ha]
      refine List.nodup_cons.mpr ⟨fun hc => ?_, ih (a :: s)⟩
      exact ((mem_dropDuplicates (a :: s) t a).mp hc).2 (List.mem_cons_self a s)

theorem dropDuplicates_of_nodup {α : Type} [DecidableEq α] (l : List α) (h : l.Nodup) :
    dropDuplicates [] l = l := by
  induction l with
  | nil => rfl
  | cons a t ih =>
    rcases List.nodup_cons.mp h with ⟨hat, ht⟩
    simp only [dropDuplicates, if_neg (List.not_mem_nil a)]
    congr 1
    rw [dropDuplicates_congr [a] [] t (fun x hx => ?_), ih ht]
    simp only [List.mem_singleton, List.not_mem_nil, iff_false]
    exact fun hxa => hat (hxa ▸ hx)

theorem merge_rows_idem {α : Type} [DecidableEq α] (T N : List α) :
    dropDuplicates [] (dropDuplicates [] (T ++ N) ++ N) = dropDuplicates [] (T ++ N) := by
  rw [dropDuplicates_append]
  rw [dropDuplicates_of_nodup _ (dropDuplicates_nodup [] (T ++ N))]
  rw [dropDuplicates_eq_nil _ N (fun x hx => ?_), List.append_nil]
  rw [List.mem_append]
  exact Or.inl ((mem_dropDuplicates [] (T ++ N) x).mpr
    ⟨List.mem_append_right T hx, List.not_mem_nil x⟩)

/-- C1: `overwrite_file` on an existing persisted table is idempotent — merging
the same new rows a second time leaves the persisted table exactly unchanged
(rows and row order both), because every new row already has a first
occurrence in the merged table and `drop_duplicates` keeps first
occurrences. -/
theorem C1_mergeAndPersist_idempotent (T N M : Table)
    (h : overwrite_file (some T) N = .ok M) :
    overwrite_file (some M) N = .ok M := by
  have hM : M = concat_and_filter_unique_values T N := by
    simpa [overwrite_file] using h.symm
  subst hM
  simp only [overwrite_file, concat_and_filter_unique_values, Except.ok.injEq, Table.mk.injEq]
  exact ⟨trivial, merge_rows_idem T.rows N.rows⟩

/-- Witness for C1 at a concrete pair of tables. -/
theorem C1_mergeAndPersist_idempotent_witness :
    overwrite_file
      (some (concat_and_filter_unique_values ⟨["concepts"], [["a"]]⟩ ⟨["concepts"], [["b"]]⟩))
      ⟨["concepts"], [["b"]]⟩
      = .ok (concat_and_filter_unique_values ⟨["concepts"], [["a"]]⟩ ⟨["concepts"], [["b"]]⟩) :=
  C1_mergeAndPersist_idempotent _ _ _ rfl

/-- C5: `overwrite_file` on an ABSENT persisted table does not create the file
with the new rows — `pd.read_csv` raises `FileNotFoundError` before the
`old_contents is None` guard can fire, so the first persist of each output
table in a fresh run fails (contradicting the function's own docstring,
lines 30-31). -/
theorem C5_overwrite_absent_file_raises :
    overwrite_file none
      ⟨["img_source", "img_captions", "culture", "semantic_field"],
       [["x.jpg", "caption", "german", "food"]]⟩ = .error .fileNotFoundError := rfl

theorem filter_eq_singleton {α : Type} (l : List α) (p : α → Bool) (r : α)
    (hnd : l.Nodup) (hr : r ∈ l) (hp : p r = true)
    (hall : ∀ x ∈ l, p x = true → x = r) : l.filter p = [r] := by
  induction l with
  | nil => cases hr
  | cons a t ih =>
    rcases List.nodup_cons.mp hnd with ⟨hat, hnt⟩
    rcases List.mem_cons.mp hr with rfl | hrt
    · rw [List.filter_cons_of_pos hp]
      have : t.filter p = [] := by
        refine List.filter_eq_nil_iff.mpr (fun x hx hpx => ?_)
        exact hat ((hall x (List.mem_cons_of_mem _ hx) hpx) ▸ hx)
      rw [this]
    · have hpa : p a = false := by
        rcases Bool.eq_false_or_eq_true (p a) with h1 | h1
        · exact absurd ((hall a (List.mem_cons_self a t) h1) ▸ hrt) hat
        · exact h1
      rw [List.filter_cons_of_neg (by simp [hpa])]
      exact ih hnt hrt (fun x hx => hall x (List.mem_cons_of_mem _ hx))

/-- C3 counterexample: the persistent store does NOT deduplicate by surface
text — two rows whose `concepts` cell is `sakura` but whose cultures differ
both survive the merge, so the merged table holds two `sakura` rows. -/
theorem C3_counterexample :
    ((concat_and_filter_unique_values
        ⟨["concepts", "culture", "semantic_field"], [["sakura", "german", ""]]⟩
        ⟨["concepts", "culture", "semantic_field"], [["sakura", "spanish", ""]]⟩).rows.filter
      (fun row => row.head? == some "sakura")).length = 2 := by decide

/-- C3 (amended): persistent-store deduplication is by the WHOLE row, not by
surface text; when every `sakura` row of the stored and the new table is one
identical row (same culture and semantic field), the merged table holds
exactly one `sakura` row. -/
theorem C3_store_dedup_full_row (T N : Table) (r : List String)
    (hall : ∀ row ∈ T.rows ++ N.rows, row.head? = some "sakura" → row = r)
    (hr : r.head? = some "sakura") (hmem : r ∈ T.rows ++ N.rows) :
    ((concat_and_filter_unique_values T N).rows.filter
      (fun row => row.head? == some "sakura")).length = 1 := by
  have hrows : (concat_and_filter_unique_values T N).rows
      = dropDuplicates [] (T.rows ++ N.rows) := rfl
  rw [hrows, filter_eq_singleton _ _ r (dropDuplicates_nodup _ _)
    ((mem_dropDuplicates [] _ r).mpr ⟨hmem, List.not_mem_nil r⟩)
    (by simp [hr])
    (fun x hx hpx => hall x ((mem_dropDuplicates [] _ x).mp hx).1 (by simpa using hpx))]
  rfl

/-- Witness for C3's amended statement at concrete tables. -/
theorem C3_store_dedup_full_row_witness :
    ((concat_and_filter_unique_values
        ⟨["concepts", "culture", "semantic_field"],
         [["sakura", "japanese", "fruit"], ["kimchi", "korean", "food"]]⟩
        ⟨["concepts", "culture", "semantic_field"], [["sakura", "japanese", "fruit"]]⟩).rows.filter
      (fun row => row.head? == some "sakura")).length = 1 :=
  C3_store_dedup_full_row _ _ ["sakura", "japanese", "fruit"] (by decide) (by decide) (by decide)

/-- C4 counterexample: the filtering-stage `contains_person_name`
(concept_filtering.py) answers `true` on `"da capo"` for the reference entry
`"leonardo da vinci"` although not every token of the entry occurs in the
text — it matches on ANY shared token, refuting the claimed
every-token-iff characterisation for that cited matcher. -/
theorem C4_counterexample :
    contains_person_name_filtering ["leonardo da vinci"] "da capo" = true
    ∧ ¬ (∀ word ∈ pySplit "leonardo da vinci", word ∈ pySplit "da capo") := by
  exact ⟨by decide, by decide⟩

/-- C4 (amended): the crawl-time matcher (concept_extraction.py) is true iff
SOME reference entry has EVERY token occurring as a whole token of the input,
and on it both of the claim's examples hold; the filtering-stage matcher
(concept_filtering.py) is instead true iff SOME token of some entry occurs as
a whole token of the input. -/
theorem C4_person_name_matching :
    (∀ (personDb : List String) (caption : String),
      contains_person_name personDb caption = true ↔
        ∃ name ∈ personDb, ∀ word ∈ pySplit name, word ∈ pySplit caption)
    ∧ (∀ (personDb : List String) (caption : String),
      contains_person_name_filtering personDb caption = true ↔
        ∃ name ∈ personDb, ∃ subname ∈ pySplit name, subname ∈ pySplit caption)
    ∧ contains_person_name ["leonardo da vinci"] "the painting by leonardo da vinci" = true
    ∧ contains_person_name ["leonardo da vinci"] "leonardo\x27s cafe" = false := by
  refine ⟨fun personDb caption => ?_, fun personDb caption => ?_, by decide, by decide⟩
  · simp [contains_person_name, List.any_eq_true, List.all_eq_true]
  · simp [contains_person_name_filtering, List.any_eq_true]

/-- Witness for C4's amended statement: the first example, derived through the
iff characterisation. -/
theorem C4_person_name_matching_witness :
    ∃ name ∈ ["leonardo da vinci"],
      ∀ word ∈ pySplit name, word ∈ pySplit "the painting by leonardo da vinci" :=
  (C4_person_name_matching.1 ["leonardo da vinci"] "the painting by leonardo da vinci").mp
    C4_person_name_matching.2.2.1

theorem append_multilingual_url_cases (default_culture : String) (soup : Node)
    (next_urls visited_urls : List String) :
    append_multilingual_url default_culture soup next_urls visited_urls = next_urls
    ∨ ∃ link, link ∉ visited_urls
        ∧ append_multilingual_url default_culture soup next_urls visited_urls
          = next_urls ++ [link] := by
  simp only [append_multilingual_url]
  split
  · exact Or.inl rfl
  · split
    · exact Or.inl rfl
    · exact Or.inl rfl
    · split
      · exact Or.inl rfl
      · exact Or.inr ⟨_, by assumption, rfl⟩

/-- C2 counterexample: the visited set and the active queue are NOT disjoint
at every step.  After line 355 marks the head visited — and before line 386
pops it — the head belongs to both; and with a duplicated queue entry even a
full iteration (`crawlStep`) ends with the visited url `u` still queued. -/
theorem C2_counterexample :
    ("u" ∈ (markVisited (initCrawlState ["u"])).visitedUrls
      ∧ "u" ∈ (markVisited (initCrawlState ["u"])).nextUrls)
    ∧ crawlStep (fun _ => FetchResult.response false (Node.text "")) [] [] []
        ⟨["u", "u"], [], some ⟨["urls"], []⟩, none, none⟩
      = .ok ⟨["u"], ["u"], some ⟨["urls"], []⟩, none, none⟩ :=
  ⟨⟨by decide, by decide⟩, rfl⟩

/-- C2 (amended): what does hold is that neither queue-growing operation ever
adds a url that is already visited — the interlanguage append checks the
visited list, and the refill body (with the always-nonempty visited list of a
running crawl) filters visited urls out. -/
theorem C2_queue_additions_unvisited :
    (∀ (default_culture : String) (soup : Node) (next_urls visited_urls : List String),
      ∀ v ∈ append_multilingual_url default_culture soup next_urls visited_urls,
        v ∈ next_urls ∨ v ∉ visited_urls)
    ∧ (∀ (queue visited : List String), visited ≠ [] →
        ∀ u ∈ (select_next_urls_body queue visited).1, u ∉ visited) := by
  constructor
  · intro dc soup q vis v hv
    rcases append_multilingual_url_cases dc soup q vis with heq | ⟨link, hlink, heq⟩
    · rw [heq] at hv
      exact Or.inl hv
    · rw [heq] at hv
      rcases List.mem_append.mp hv with h1 | h1
      · exact Or.inl h1
      · rw [List.mem_singleton.mp h1]
        exact Or.inr hlink
  · intro queue visited hvis u hu
    have hne : visited.isEmpty = false := by
      cases visited with
      | nil => exact absurd rfl hvis
      | cons a t => rfl
    simp only [select_next_urls_body, hne, Bool.false_eq_true, if_false] at hu
    rcases List.mem_filterMap.mp hu with ⟨x, _, hfx⟩
    by_cases hmem : (wikiBase ++ x) ∈ visited
    · rw [if_pos hmem] at hfx
      cases hfx
    · rw [if_neg hmem] at hfx
      cases hfx
      exact hmem

/-- The interlanguage list of a sample page offering a German variant. -/
def interlangSample : Node :=
  Node.elem "div" []
    (.cons (Node.elem "li" [("class", "interlanguage-link")]
      (.cons (Node.elem "a" [("lang", "de"), ("href", "https://de.wikipedia.org/wiki/L")] .nil)
        .nil)) .nil)

/-- Witness for C2's amended statement at a concrete page and queue. -/
theorem C2_queue_additions_unvisited_witness :
    ("https://de.wikipedia.org/wiki/L" ∈ ([] : List String)
      ∨ "https://de.wikipedia.org/wiki/L" ∉ (["v"] : List String))
    ∧ "https://en.wikipedia.org/wiki/A" ∉ (["v"] : List String) :=
  ⟨C2_queue_additions_unvisited.1 "german" interlangSample [] ["v"]
      "https://de.wikipedia.org/wiki/L" (by decide),
   C2_queue_additions_unvisited.2 ["wiki/A"] ["v"] (by decide)
      "https://en.wikipedia.org/wiki/A" (by decide)⟩

/-- C6 counterexample: an empty 2xx body is NOT skipped — the response is
truthy, extraction proceeds and `soup.select("#firstHeading")[0]` raises
`IndexError`; and a network error is an exception escaping `requests.get`,
aborting the run before the url is marked visited, not a skipped
iteration. -/
theorem C6_counterexample :
    crawlStep (fun _ => FetchResult.response true (Node.elem "html" [] .nil)) [] [] []
      (initCrawlState ["u"]) = .error .indexError
    ∧ crawlStep (fun _ => FetchResult.netError) [] [] [] (initCrawlState ["u"])
      = .error .requestsException :=
  ⟨rfl, rfl⟩

/-- C6 (amended): for a fetch that returns a NON-SUCCESS STATUS (falsy
response) the iteration skips every extraction and persistence step, marks
the url visited, pops the queue and leaves all three stores untouched; such a
url is only fetched again if it occupies another queue slot. -/
theorem C6_fetch_failure_skips (fetch : String → FetchResult)
    (cultures semanticFields : List (String × String)) (personDb : List String)
    (st : CrawlState) (u : String) (rest : List String) (doc : Node)
    (hq : st.nextUrls = u :: rest) (hf : fetch u = .response false doc) (hrest : rest ≠ []) :
    crawlStep fetch cultures semanticFields personDb st
      = .ok { st with visitedUrls := st.visitedUrls ++ [u], nextUrls := rest } := by
  cases st with
  | mk nu vu af imf cf =>
    dsimp only at hq
    subst hq
    cases rest with
    | nil => exact absurd rfl hrest
    | cons a t =>
      simp only [crawlStep, List.head?, hf]
      rfl

/-- Witness for C6's amended statement at a concrete failing fetch. -/
theorem C6_fetch_failure_skips_witness :
    crawlStep (fun _ => FetchResult.response false (Node.text "")) [] [] []
      ⟨["u", "v"], [], some ⟨["urls"], []⟩, none, none⟩
      = .ok ⟨["v"], ["u"], some ⟨["urls"], []⟩, none, none⟩ :=
  C6_fetch_failure_skips _ [] [] [] _ "u" ["v"] (Node.text "") rfl rfl (by decide)

/-- C7: frontier exhaustion is NOT a normal termination — when the queue
empties, the refill raises `AttributeError` (`pd.read_csv_file` does not
exist), so the iteration whose pop empties the queue errors out instead of
ending the crawl cleanly. -/
theorem C7_frontier_exhaustion_raises :
    crawlStep (fun _ => FetchResult.response false (Node.text "")) [] [] []
      (initCrawlState ["u"]) = .error .attributeError := rfl

/-- C8 counterexample: the refill operation raises `AttributeError` instead of
dequeuing anything, and its residual body (behind the faulty read) prefixes
the base url onto EVERY dequeued url once the visited list is nonempty —
an already-absolute url comes back double-prefixed rather than unchanged. -/
theorem C8_counterexample :
    select_next_urls_to_jump_to (some ⟨["urls"], [["wiki/A"]]⟩) ["v"] = .error .attributeError
    ∧ select_next_urls_body ["https://en.wikipedia.org/wiki/A"] ["v"]
      = (["https://en.wikipedia.org/https://en.wikipedia.org/wiki/A"], []) :=
  ⟨rfl, rfl⟩

/-- C8 (amended): the refill body dequeues the first 100 overflow rows
(persisting the rest), and with a nonempty visited list it excludes visited
urls but base-prefixes every dequeued url unconditionally: every returned url
is `wikiBase ++ w` for some dequeued `w`, and every non-visited prefixed
dequeued url is returned. -/
theorem C8_refill_characterisation (queue visited : List String) :
    (select_next_urls_body queue visited).2 = queue.drop 100
    ∧ (visited ≠ [] → ∀ u ∈ (select_next_urls_body queue visited).1,
        u ∉ visited ∧ ∃ w ∈ queue.take 100, u = wikiBase ++ w)
    ∧ (∀ w ∈ queue.take 100, visited ≠ [] → wikiBase ++ w ∉ visited →
        wikiBase ++ w ∈ (select_next_urls_body queue visited).1) := by
  have hne : visited ≠ [] → visited.isEmpty = false := by
    intro hvis
    cases visited with
    | nil => exact absurd rfl hvis
    | cons a t => rfl
  refine ⟨rfl, fun hvis u hu => ?_, fun w hw hvis hnv => ?_⟩
  · simp only [select_next_urls_body, hne hvis, Bool.false_eq_true, if_false] at hu
    rcases List.mem_filterMap.mp hu with ⟨x, hx, hfx⟩
    by_cases hmem : (wikiBase ++ x) ∈ visited
    · rw [if_pos hmem] at hfx
      cases hfx
    · rw [if_neg hmem] at hfx
      cases hfx
      exact ⟨hmem, x, hx, rfl⟩
  · simp only [select_next_urls_body, hne hvis, Bool.false_eq_true, if_false]
    exact List.mem_filterMap.mpr ⟨w, hw, by rw [if_neg hnv]⟩

/-- Witness for C8's amended statement at a concrete queue. -/
theorem C8_refill_characterisation_witness :
    wikiBase ++ "wiki/A" ∈ (select_next_urls_body ["wiki/A"] ["v"]).1 :=
  (C8_refill_characterisation ["wiki/A"] ["v"]).2.2 "wiki/A" (by decide) (by decide) (by decide)

theorem figStep_error_eq (personDb : List String) (fig : Node)
    (acc : List String × List String) (e : PyError)
    (h : figStep personDb fig acc = .error e) : e = .attributeError := by
  simp only [figStep] at h
  repeat' split at h
  all_goals simp_all

theorem figStep_bad (personDb : List String) (fig : Node) (acc : List String × List String)
    (img : Node) (hi : findFirstTag "img" fig = some img)
    (hcap : findFirstTag "figcaption" fig = none) :
    figStep personDb fig acc = .error .attributeError := by
  simp only [figStep, hi, hcap]

theorem figLoop_error_eq (personDb : List String) (figs : List Node)
    (acc : List String × List String) (e : PyError)
    (h : figLoop personDb figs acc = .error e) : e = .attributeError := by
  induction figs generalizing acc with
  | nil => simp [figLoop] at h
  | cons f fs ih =>
    simp only [figLoop] at h
    split at h
    · rename_i e' heq
      cases h
      exact figStep_error_eq _ _ _ _ heq
    · rename_i acc' heq
      exact ih acc' h

theorem figLoop_bad (personDb : List String) (figs : List Node)
    (acc : List String × List String)
    (h : ∃ fig ∈ figs, ∃ img, findFirstTag "img" fig = some img
        ∧ findFirstTag "figcaption" fig = none) :
    figLoop personDb figs acc = .error .attributeError := by
  induction figs generalizing acc with
  | nil =>
    rcases h with ⟨f, hf, _⟩
    cases hf
  | cons f fs ih =>
    rcases h with ⟨g, hg, img, hi, hcap⟩
    rcases List.mem_cons.mp hg with rfl | hg'
    · simp only [figLoop, figStep_bad personDb g acc img hi hcap]
    · simp only [figLoop]
      cases hstep : figStep personDb f acc with
      | error e' =>
        simp only [hstep]
        rw [figStep_error_eq _ _ _ _ hstep]
      | ok acc' =>
        simp only [hstep]
        exact ih acc' ⟨g, hg', img, hi, hcap⟩

theorem imgStep_error_eq (personDb : List String) (img : Node)
    (acc : List String × List String) (e : PyError)
    (h : imgStep personDb img acc = .error e) : e = .attributeError := by
  simp only [imgStep] at h
  repeat' split at h
  all_goals simp_all

theorem imgStep_bad (personDb : List String) (img : Node) (acc : List String × List String)
    (hsrc : img.getAttr "src" = none) :
    imgStep personDb img acc = .error .attributeError := by
  simp only [imgStep, hsrc]

theorem imgLoop_error_eq (personDb : List String) (imgs : List Node)
    (acc : List String × List String) (e : PyError)
    (h : imgLoop personDb imgs acc = .error e) : e = .attributeError := by
  induction imgs generalizing acc with
  | nil => simp [imgLoop] at h
  | cons f fs ih =>
    simp only [imgLoop] at h
    split at h
    · rename_i e' heq
      cases h
      exact imgStep_error_eq _ _ _ _ heq
    · rename_i acc' heq
      exact ih acc' h

theorem imgLoop_bad (personDb : List String) (imgs : List Node)
    (acc : List String × List String)
    (h : ∃ img ∈ imgs, Node.getAttr img "src" = none) :
    imgLoop personDb imgs acc = .error .attributeError := by
  induction imgs generalizing acc with
  | nil =>
    rcases h with ⟨f, hf, _⟩
    cases hf
  | cons f fs ih =>
    rcases h with ⟨g, hg, hsrc⟩
    rcases List.mem_cons.mp hg with rfl | hg'
    · simp only [imgLoop, imgStep_bad personDb g acc hsrc]
    · simp only [imgLoop]
      cases hstep : imgStep personDb f acc with
      | error e' =>
        simp only [hstep]
        rw [imgStep_error_eq _ _ _ _ hstep]
      | ok acc' =>
        simp only [hstep]
        exact ih acc' ⟨g, hg', hsrc⟩

/-- C10: `get_captioned_images` is total only under a document precondition —
whenever some `<figure>` holds an `<img>` but no `<figcaption>`, or some
`<img>` anywhere in the document (in particular one outside every figure,
which the figure scan cannot touch) has no `src` attribute, the function
raises `AttributeError` instead of returning a table. -/
theorem C10_captioned_images_error (personDb : List String) (content : Node)
    (h : (∃ fig ∈ findAllTag "figure" content, ∃ img,
            findFirstTag "img" fig = some img ∧ findFirstTag "figcaption" fig = none)
       ∨ (∃ img ∈ findAllTag "img" content, Node.getAttr img "src" = none)) :
    get_captioned_images personDb content = .error .attributeError := by
  rcases h with h | h
  · simp only [get_captioned_images, figLoop_bad personDb _ _ h]
  · simp only [get_captioned_images]
    cases hfig : figLoop personDb (findAllTag "figure" content) ([], []) with
    | error e =>
      simp only [hfig]
      rw [figLoop_error_eq _ _ _ _ hfig]
    | ok acc =>
      simp only [hfig, imgLoop_bad personDb _ acc h]

/-- A figure holding an image but no caption. -/
def figureSample : Node :=
  Node.elem "figure" [] (.cons (Node.elem "img" [("src", "a.jpg")] .nil) .nil)

/-- A page body whose only figure lacks a figcaption. -/
def figNoCaptionDoc : Node :=
  Node.elem "div" [] (.cons figureSample .nil)

/-- Witness for C10 at a concrete document. -/
theorem C10_captioned_images_error_witness :
    (∃ fig ∈ findAllTag "figure" figNoCaptionDoc, ∃ img,
        findFirstTag "img" fig = some img ∧ findFirstTag "figcaption" fig = none)
    ∧ get_captioned_images [] figNoCaptionDoc = .error .attributeError :=
  ⟨⟨figureSample, List.Mem.head _, Node.elem "img" [("src", "a.jpg")] .nil, rfl, rfl⟩,
   C10_captioned_images_error [] figNoCaptionDoc
    (Or.inl ⟨figureSample, List.Mem.head _, Node.elem "img" [("src", "a.jpg")] .nil, rfl, rfl⟩)⟩

theorem mem_setAdd_self (l : List String) (x : String) : x ∈ setAdd l x := by
  unfold setAdd
  split
  · assumption
  · exact List.mem_append_right _ (List.mem_singleton_self x)

theorem mem_setAdd_of_mem (l : List String) (x y : String) (h : y ∈ l) : y ∈ setAdd l x := by
  unfold setAdd
  split
  · exact h
  · exact List.mem_append_left _ h

theorem mem_setAdd_cases (l : List String) (x y : String) (h : y ∈ setAdd l x) :
    y ∈ l ∨ y = x := by
  unfold setAdd at h
  split at h
  · exact Or.inl h
  · rcases List.mem_append.mp h with h1 | h1
    · exact Or.inl h1
    · exact Or.inr (List.mem_singleton.mp h1)

/-- The links of the page the loop actually processes: all of them when the
page has no reference section, none when `find_next("a")` would raise, and
the links strictly before the cutoff anchor otherwise. -/
def effLinksR (refCut : RefCut) (links : List Node) : List Node :=
  match refCut with
  | none => links
  | some none => []
  | some (some cut) => links.takeWhile (fun l => !(l.getAttr "href" == cut))

theorem linksLoop_mono (refCut : RefCut) (links : List Node) :
    ∀ (urls cs us2 cs2 : List String), linksLoop refCut links urls cs = .ok (us2, cs2) →
    (∀ x ∈ urls, x ∈ us2) ∧ (∀ x ∈ cs, x ∈ cs2) := by
  induction links with
  | nil =>
    intro urls cs us2 cs2 h
    simp only [linksLoop, Except.ok.injEq, Prod.mk.injEq] at h
    obtain ⟨h1, h2⟩ := h
    subst h1
    subst h2
    exact ⟨fun x hx => hx, fun x hx => hx⟩
  | cons l rest ih =>
    intro urls cs us2 cs2 h
    simp only [linksLoop] at h
    split at h
    · cases h
    · simp only [Except.ok.injEq, Prod.mk.injEq] at h
      obtain ⟨h1, h2⟩ := h
      subst h1
      subst h2
      exact ⟨fun x hx => hx, fun x hx => hx⟩
    · split at h
      · split at h
        · cases h
        · refine ⟨fun x hx => (ih _ _ _ _ h).1 x (mem_setAdd_of_mem _ _ _ hx),
            fun x hx => (ih _ _ _ _ h).2 x ?_⟩
          split
          · exact mem_setAdd_of_mem _ _ _ hx
          · exact hx
      · exact ih _ _ _ _ h

theorem linksLoop_missing_title_error (refCut : RefCut) (links : List Node) :
    ∀ (urls cs : List String),
    (∃ l ∈ effLinksR refCut links, hrefKept (l.getAttr "href") = true
        ∧ l.getAttr "title" = none) →
    linksLoop refCut links urls cs = .error .attributeError := by
  induction links with
  | nil =>
    intro urls cs h
    rcases h with ⟨l, hl, _⟩
    cases refCut with
    | none => cases hl
    | some o =>
      cases o with
      | none => cases hl
      | some cut => simp [effLinksR] at hl
  | cons l rest ih =>
    intro urls cs h
    cases refCut with
    | none =>
      rcases h with ⟨g, hg, hkept, htitle⟩
      simp only [effLinksR] at hg
      rcases List.mem_cons.mp hg with rfl | hg'
      · simp [linksLoop, hkept, htitle]
      · simp only [linksLoop]
        by_cases hk : hrefKept (l.getAttr "href") = true
        · simp only [hk, if_true]
          cases ht : l.getAttr "title" with
          | none => rfl
          | some t => exact ih _ _ ⟨g, hg', hkept, htitle⟩
        · have hk' : hrefKept (l.getAttr "href") = false := by simpa using hk
          simp only [hk', Bool.false_eq_true, if_false]
          exact ih _ _ ⟨g, hg', hkept, htitle⟩
    | some o =>
      cases o with
      | none =>
        rcases h with ⟨g, hg, _⟩
        simp [effLinksR] at hg
      | some cut =>
        rcases h with ⟨g, hg, hkept, htitle⟩
        by_cases hcut : (l.getAttr "href" == cut) = true
        · simp [effLinksR, List.takeWhile_cons, hcut] at hg
        · have hcut' : (l.getAttr "href" == cut) = false := by simpa using hcut
          simp only [effLinksR, List.takeWhile_cons, hcut', Bool.not_false, if_true] at hg
          simp only [linksLoop, hcut']
          rcases List.mem_cons.mp hg with rfl | hg'
          · simp [hkept, htitle]
          · by_cases hk : hrefKept (l.getAttr "href") = true
            · simp only [hk, if_true]
              cases ht : l.getAttr "title" with
              | none => rfl
              | some t => exact ih _ _ ⟨g, hg', hkept, htitle⟩
            · have hk' : hrefKept (l.getAttr "href") = false := by simpa using hk
              simp only [hk', Bool.false_eq_true, if_false]
              exact ih _ _ ⟨g, hg', hkept, htitle⟩

theorem linksLoop_urls_complete (refCut : RefCut) (links : List Node) :
    ∀ (urls cs us2 cs2 : List String),
    linksLoop refCut links urls cs = .ok (us2, cs2) →
    ∀ g ∈ effLinksR refCut links, ∀ hstr, g.getAttr "href" = some hstr →
      hrefKeptStr hstr = true → hstr ∈ us2 := by
  induction links with
  | nil =>
    intro urls cs us2 cs2 _ g hg
    cases refCut with
    | none => cases hg
    | some o =>
      cases o with
      | none => cases hg
      | some cut => simp [effLinksR] at hg
  | cons l rest ih =>
    intro urls cs us2 cs2 hloop g hg hstr hattr hkept
    cases refCut with
    | none =>
      simp only [effLinksR] at hg
      simp only [linksLoop] at hloop
      rcases List.mem_cons.mp hg with rfl | hg'
      · have hk : hrefKept (g.getAttr "href") = true := by
          rw [hattr]
          simpa [hrefKept, Option.any] using hkept
        rw [hattr] at hloop
        simp only [hattr ▸ hk, if_true] at hloop
        cases ht : g.getAttr "title" with
        | none =>
          rw [ht] at hloop
          cases hloop
        | some t =>
          rw [ht] at hloop
          exact (linksLoop_mono none rest _ _ _ _ hloop).1 hstr (mem_setAdd_self urls hstr)
      · by_cases hk : hrefKept (l.getAttr "href") = true
        · simp only [hk, if_true] at hloop
          cases ht : l.getAttr "title" with
          | none =>
            rw [ht] at hloop
            cases hloop
          | some t =>
            rw [ht] at hloop
            exact ih _ _ _ _ hloop g hg' hstr hattr hkept
        · have hk' : hrefKept (l.getAttr "href") = false := by simpa using hk
          simp only [hk', Bool.false_eq_true, if_false] at hloop
          exact ih _ _ _ _ hloop g hg' hstr hattr hkept
    | some o =>
      cases o with
      | none => simp [effLinksR] at hg
      | some cut =>
        by_cases hcut : (l.getAttr "href" == cut) = true
        · simp [effLinksR, List.takeWhile_cons, hcut] at hg
        · have hcut' : (l.getAttr "href" == cut) = false := by simpa using hcut
          simp only [effLinksR, List.takeWhile_cons, hcut', Bool.not_false, if_true] at hg
          simp only [linksLoop, hcut'] at hloop
          rcases List.mem_cons.mp hg with rfl | hg'
          · have hk : hrefKept (g.getAttr "href") = true := by
              rw [hattr]
              simpa [hrefKept, Option.any] using hkept
            rw [hattr] at hloop
            simp only [hattr ▸ hk, if_true] at hloop
            cases ht : g.getAttr "title" with
            | none =>
              rw [ht] at hloop
              cases hloop
            | some t =>
              rw [ht] at hloop
              exact (linksLoop_mono _ rest _ _ _ _ hloop).1 hstr (mem_setAdd_self urls hstr)
          · by_cases hk : hrefKept (l.getAttr "href") = true
            · simp only [hk, if_true] at hloop
              cases ht : l.getAttr "title" with
              | none =>
                rw [ht] at hloop
                cases hloop
              | some t =>
                rw [ht] at hloop
                exact ih _ _ _ _ hloop g hg' hstr hattr hkept
            · have hk' : hrefKept (l.getAttr "href") = false := by simpa using hk
              simp only [hk', Bool.false_eq_true, if_false] at hloop
              exact ih _ _ _ _ hloop g hg' hstr hattr hkept

theorem linksLoop_concepts_from_titles (refCut : RefCut) (links : List Node) :
    ∀ (urls cs us2 cs2 : List String),
    linksLoop refCut links urls cs = .ok (us2, cs2) →
    ∀ c ∈ cs2, c ∈ cs ∨ ∃ g ∈ effLinksR refCut links,
      hrefKept (g.getAttr "href") = true ∧ ∃ t, g.getAttr "title" = some t
        ∧ (pyIsAlpha t && t.length > 1) = true ∧ c = pyLower t := by
  induction links with
  | nil =>
    intro urls cs us2 cs2 h c hc
    simp only [linksLoop, Except.ok.injEq, Prod.mk.injEq] at h
    obtain ⟨_, h2⟩ := h
    subst h2
    exact Or.inl hc
  | cons l rest ih =>
    intro urls cs us2 cs2 hloop c hc
    have step : ∀ (urls' cs' : List String),
        linksLoop refCut rest urls' cs' = .ok (us2, cs2) →
        (∀ x ∈ cs', x ∈ cs ∨ ∃ t, l.getAttr "title" = some t
          ∧ hrefKept (l.getAttr "href") = true
          ∧ (pyIsAlpha t && t.length > 1) = true ∧ x = pyLower t) →
        c ∈ cs ∨ ∃ g ∈ l :: effLinksR refCut rest,
          hrefKept (g.getAttr "href") = true ∧ ∃ t, g.getAttr "title" = some t
            ∧ (pyIsAlpha t && t.length > 1) = true ∧ c = pyLower t := by
      intro urls' cs' hrec hcs'
      rcases ih _ _ _ _ hrec c hc with hin | ⟨g, hg, hgk, t', ht', hcond', hceq'⟩
      · rcases hcs' c hin with hin' | ⟨t, ht, hk, hcond, hceq⟩
        · exact Or.inl hin'
        · exact Or.inr ⟨l, List.mem_cons_self l _, hk, t, ht, hcond, hceq⟩
      · exact Or.inr ⟨g, List.mem_cons_of_mem l hg, hgk, t', ht', hcond', hceq'⟩
    cases refCut with
    | none =>
      simp only [linksLoop] at hloop
      by_cases hk : hrefKept (l.getAttr "href") = true
      · simp only [hk, if_true] at hloop
        cases ht : l.getAttr "title" with
        | none =>
          rw [ht] at hloop
          cases hloop
        | some t =>
          rw [ht] at hloop
          refine step _ _ hloop (fun x hx => ?_)
          by_cases hcond : (pyIsAlpha t && t.length > 1) = true
          · rw [if_pos hcond] at hx
            rcases mem_setAdd_cases _ _ _ hx with hxs | rfl
            · exact Or.inl hxs
            · exact Or.inr ⟨t, ht, hk, hcond, rfl⟩
          · rw [if_neg hcond] at hx
            exact Or.inl hx
      · have hk' : hrefKept (l.getAttr "href") = false := by simpa using hk
        simp only [hk', Bool.false_eq_true, if_false] at hloop
        rcases ih _ _ _ _ hloop c hc with hin | ⟨g, hg, hgk, t', ht', hcond', hceq'⟩
        · exact Or.inl hin
        · exact Or.inr ⟨g, List.mem_cons_of_mem l hg, hgk, t', ht', hcond', hceq'⟩
    | some o =>
      cases o with
      | none =>
        simp only [linksLoop] at hloop
        cases hloop
      | some cut =>
        by_cases hcut : (l.getAttr "href" == cut) = true
        · simp only [linksLoop, hcut] at hloop
          simp only [Except.ok.injEq, Prod.mk.injEq] at hloop
          obtain ⟨_, h2⟩ := hloop
          subst h2
          exact Or.inl hc
        · have hcut' : (l.getAttr "href" == cut) = false := by simpa using hcut
          have heff : effLinksR (some (some cut)) (l :: rest)
              = l :: effLinksR (some (some cut)) rest := by
            simp [effLinksR, List.takeWhile_cons, hcut']
          rw [heff]
          simp only [linksLoop, hcut'] at hloop
          by_cases hk : hrefKept (l.getAttr "href") = true
          · simp only [hk, if_true] at hloop
            cases ht : l.getAttr "title" with
            | none =>
              rw [ht] at hloop
              cases hloop
            | some t =>
              rw [ht] at hloop
              refine step _ _ hloop (fun x hx => ?_)
              by_cases hcond : (pyIsAlpha t && t.length > 1) = true
              · rw [if_pos hcond] at hx
                rcases mem_setAdd_cases _ _ _ hx with hxs | rfl
                · exact Or.inl hxs
                · exact Or.inr ⟨t, ht, hk, hcond, rfl⟩
              · rw [if_neg hcond] at hx
                exact Or.inl hx
          · have hk' : hrefKept (l.getAttr "href") = false := by simpa using hk
            simp only [hk', Bool.false_eq_true, if_false] at hloop
            rcases ih _ _ _ _ hloop c hc with hin | ⟨g, hg, hgk, t', ht', hcond', hceq'⟩
            · exact Or.inl hin
            · exact Or.inr ⟨g, List.mem_cons_of_mem l hg, hgk, t', ht', hcond', hceq'⟩

/-- A bodyContent fragment whose only link has an href but NO title
attribute. -/
def c9MissingTitleDoc : Node :=
  Node.elem "div" [("id", "bodyContent")]
    (.cons (Node.elem "a" [("href", "/wiki/Foo")] .nil) .nil)

/-- C9 counterexample: a kept internal content link whose `title` attribute is
missing does not contribute its href — `concept_title.isalpha()` on `None`
raises `AttributeError` (line 210), so the whole extraction errors instead of
returning the url set. -/
theorem C9_counterexample :
    extract_link_concepts_and_urls (some c9MissingTitleDoc) "https://en.wikipedia.org/wiki/Bar"
      = .error .attributeError := rfl

/-- C9 (amended): over the links before the reference-section cutoff, when
every kept link carries a `title` attribute the loop returns, the returned
url set contains the href of every kept link regardless of the title's
content, and every returned concept is the lowercased alphabetic
longer-than-one title of some kept link; but if some kept link before the
cutoff has NO title attribute the loop raises `AttributeError` instead. -/
theorem C9_link_extraction (refCut : RefCut) (links : List Node)
    (urls cs us2 cs2 : List String) :
    ((∃ l ∈ effLinksR refCut links, hrefKept (l.getAttr "href") = true
        ∧ l.getAttr "title" = none) →
      linksLoop refCut links urls cs = .error .attributeError)
    ∧ (linksLoop refCut links urls cs = .ok (us2, cs2) →
        (∀ g ∈ effLinksR refCut links, ∀ hstr, g.getAttr "href" = some hstr →
          hrefKeptStr hstr = true → hstr ∈ us2)
        ∧ (∀ c ∈ cs2, c ∈ cs ∨ ∃ g ∈ effLinksR refCut links,
            hrefKept (g.getAttr "href") = true ∧ ∃ t, g.getAttr "title" = some t
              ∧ (pyIsAlpha t && t.length > 1) = true ∧ c = pyLower t)) :=
  ⟨linksLoop_missing_title_error refCut links urls cs,
   fun h => ⟨linksLoop_urls_complete refCut links urls cs us2 cs2 h,
             linksLoop_concepts_from_titles refCut links urls cs us2 cs2 h⟩⟩

/-- A link with both an href and an alphabetic title. -/
def c9TitledLink : Node :=
  Node.elem "a" [("href", "/wiki/Asdf"), ("title", "Asdf")] .nil

/-- Witness for C9's amended statement at a concrete link list. -/
theorem C9_link_extraction_witness :
    "/wiki/Asdf" ∈ (["/wiki/Asdf"] : List String) :=
  ((C9_link_extraction none [c9TitledLink] [] [] ["/wiki/Asdf"] ["asdf"]).2 rfl).1
    c9TitledLink (List.Mem.head _) "/wiki/Asdf" rfl (by decide)
